import Mathlib

/-
Shallow embedding of `psi_calc` from `src/psi.py` (repository dennisdeh/psi).

Modelling conventions:
* A pandas Series element is a `Val`: a rational number, the missing-value
  marker NaN, or a categorical label (string).  Exact rationals stand in for
  IEEE floats; every arithmetic step of the source (linspace, quantile
  interpolation, frequency division) is algebraic, so the rational model
  computes the same values the float code approximates.
* Inputs are taken after the source's shape normalisation (list / 1-d array /
  Series / 1-column frame all become a Series, i.e. a `List Val` here).
* `pd.cut` / `pd.qcut` with `right=True, include_lowest=True` are modelled by
  `cutCat`: searchsorted with side "left", the `ids[x == bins[0]] = 1`
  override, and NaN for ids 0 or len(bins).  Interval categories are kept as
  exact pairs of edges (`Cat.bin lo hi`) instead of the decimal-rounded label
  strings; pandas' `_infer_precision` keeps distinct edges distinct in the
  label text, so this is a bijective renaming of categories.  The string
  "nan" produced by `.astype(str)` on unbinned values is `Cat.nanStr`.
* The `precision` parameter only affects label text and is dropped.
* Python errors are collapsed to their kind: `PsiErr.invalidInput` (ValueError
  on input shape), `PsiErr.typeMismatch` (the dtype assertion),
  `PsiErr.configError` (assertion/ValueError/TypeError on binning
  parameters, raised in `psi_calc` itself or inside `pd.cut`/`pd.qcut`), and
  `PsiErr.otherError` for the degenerate all-NaN-numeric-sample failure.
* `np.nan` as a returned PSI value is `Option.none`; an empty DataFrame is
  the empty table.  Row order of the outer join is abstracted (pandas sorts
  the index union; we take first-union order) — no property below depends on
  row order.
-/

/-- Element of a sample: a number, the missing marker, or a categorical
label. -/
inductive Val where
  | num (q : ℚ)
  | nan
  | str (s : String)
deriving DecidableEq, Repr

/-- The `bins` argument of `psi_calc`: an integer count, a non-integer
number, an explicit break list, or Python `None`. -/
inductive Bins where
  | int (n : ℤ)
  | float (q : ℚ)
  | list (l : List ℚ)
  | none
deriving DecidableEq, Repr

def Bins.isList : Bins → Bool
  | .list _ => true
  | _ => false

/-- Category after categorisation: a numeric bin `(lo, hi]`, the string
"nan" (missing or unmatched numeric values after `.astype(str)`), or a raw
categorical value. -/
inductive Cat where
  | bin (lo hi : ℚ)
  | nanStr
  | val (v : Val)
deriving DecidableEq, Repr

/-- Error kinds of `psi_calc`, following the spec's taxonomy. -/
inductive PsiErr where
  | invalidInput
  | typeMismatch
  | configError
  | otherError
deriving DecidableEq, Repr

/-- Dtype test `X.dtype == "int" or X.dtype == "float"`: a pandas Series
gets an int/float dtype exactly when every element is a number or NaN. -/
def numericDtype (xs : List Val) : Bool :=
  xs.all fun v => match v with | .str _ => false | _ => true

/-- Numeric view of an element; NaN and labels give none. -/
def toOptQ : Val → Option ℚ
  | .num q => some q
  | _ => Option.none

/-- Model of Series.min over non-missing values. -/
def nanmin (xs : List ℚ) : ℚ :=
  match xs with
  | [] => 0
  | h :: t => t.foldl min h

/-- Model of Series.max over non-missing values. -/
def nanmax (xs : List ℚ) : ℚ :=
  match xs with
  | [] => 0
  | h :: t => t.foldl max h

/-- Model of np.linspace a b (n+1): the n+1 points a + (b-a)*i/n. -/
def linspace (a b : ℚ) (n : ℕ) : List ℚ :=
  (List.range (n + 1)).map fun i => a + (b - a) * i / n

/-- pandas `unique` (first-occurrence order). -/
def pandasUnique : List ℚ → List ℚ
  | [] => []
  | x :: t => x :: pandasUnique (t.filter fun y => y ≠ x)
termination_by l => l.length
decreasing_by
  simp only [List.length_cons]
  exact Nat.lt_succ_of_le (List.length_filter_le _ t)

/-- duplicates="drop" in `_bins_to_cuts`: breaks are replaced by their
unique values, except that a break list of length exactly 2 is kept as is
(the `len(bins) != 2` guard in pandas). -/
def dropDup (l : List ℚ) : List ℚ :=
  let u := pandasUnique l
  if u.length < l.length ∧ l.length ≠ 2 then u else l

/-- Validity check of IntervalIndex.from_breaks: it accepts exactly the
non-decreasing break lists. -/
def sortedLE : List ℚ → Bool
  | [] => true
  | [_] => true
  | x :: y :: t => decide (x ≤ y) && sortedLE (y :: t)

/-- Edges computed by `pd.cut` for an integer bin count (right=True):
linspace over [min, max] of the data, the first edge lowered by 0.1% of the
range; a degenerate range is widened by 0.1% (or 0.001) on both sides. -/
def equidistantBreaks (ns : List ℚ) (n : ℕ) : List ℚ :=
  let mn := nanmin ns
  let mx := nanmax ns
  if mn = mx then
    linspace (mn - (if mn ≠ 0 then |mn| / 1000 else 1 / 1000))
             (mx + (if mx ≠ 0 then |mx| / 1000 else 1 / 1000)) n
  else
    match linspace mn mx n with
    | [] => []
    | b0 :: rest => (b0 - (mx - mn) / 1000) :: rest

/-- Insertion into a sorted list. -/
def insertSorted (x : ℚ) : List ℚ → List ℚ
  | [] => [x]
  | y :: ys => if x ≤ y then x :: y :: ys else y :: insertSorted x ys

/-- Sort (ascending), as numpy does before quantile interpolation. -/
def sortQ (l : List ℚ) : List ℚ := l.foldr insertSorted []

/-- Linear-interpolation quantile (numpy default) of a sorted list. -/
def quantileAt (s : List ℚ) (q : ℚ) : ℚ :=
  match s with
  | [] => 0
  | _ :: _ =>
    let h := q * ((s.length : ℚ) - 1)
    let j := (⌊h⌋).toNat
    let aj := s.getD j 0
    aj + (s.getD (j + 1) aj - aj) * (h - (j : ℚ))

/-- Edges computed by `pd.qcut` for q = n: empirical quantiles of the data
at 0, 1/n, …, 1. -/
def quantileBreaks (ns : List ℚ) (n : ℕ) : List ℚ :=
  let s := sortQ ns
  (List.range (n + 1)).map fun i => quantileAt s ((i : ℚ) / (n : ℚ))

/-- Assignment step of `_bins_to_cuts` with right=True, include_lowest=True:
searchsorted side "left" (the count of edges strictly below x), the
`ids[x == bins[0]] = 1` override, and the NaN mask for ids 0 or len(bins).
Followed by `.astype(str)`, a missing or unmatched value is the category
"nan". -/
def cutCat (breaks : List ℚ) (v : Val) : Cat :=
  match v with
  | .num x =>
    let ids0 := breaks.countP fun e => decide (e < x)
    let ids := if breaks ≠ [] ∧ x = breaks.headD 0 then 1 else ids0
    if ids = 0 ∨ ids = breaks.length then Cat.nanStr
    else Cat.bin (breaks.getD (ids - 1) 0) (breaks.getD ids 0)
  | _ => Cat.nanStr

/-- Break computation/validation of the `pd.cut` call on X1 (bins either an
integer count or an explicit list; duplicates="drop").  For an explicit
list, `pd.cut` first validates the raw list: `np.diff(bins) < 0` anywhere
raises "bins must increase monotonically" before duplicates are dropped,
and an empty list fails inside `_bins_to_cuts` (indexing `bins[0]`); only
then are duplicates dropped for the returned breaks. -/
def cutBreaks (X : List Val) (b : Bins) : Except PsiErr (List ℚ) :=
  match b with
  | .int n =>
    if n < 1 then .error .configError
    else
      let ns := X.filterMap toOptQ
      if ns = [] then .error .otherError
      else .ok (dropDup (equidistantBreaks ns n.toNat))
  | .list l =>
    if l = [] then .error .configError
    else if sortedLE l then .ok (dropDup l) else .error .configError
  | _ => .error .configError

/-- Binning of X1 (lines 72-93 of src/psi.py): the equidistant/None branch
(`pd.cut`, asserting an explicit break list when the method is None), the
quantiles branch (`pd.qcut`, asserting an integer bin count; a negative
count fails inside numpy's linspace), and the ValueError for any other
method string.  Returns the categorised X1 together with `breaks`. -/
def binX1 (X : List Val) (m : Option String) (b : Bins) :
    Except PsiErr (List Cat × List ℚ) :=
  if m = some ("equidistant") ∨ m = Option.none then
    if m = Option.none ∧ b.isList = false then .error .configError
    else
      match cutBreaks X b with
      | .error e => .error e
      | .ok breaks => .ok (X.map (cutCat breaks), breaks)
  else if m = some ("quantiles") then
    match b with
    | .int n =>
      if n < 0 then .error .configError
      else
        let breaks := dropDup (quantileBreaks (X.filterMap toOptQ) n.toNat)
        .ok (X.map (cutCat breaks), breaks)
    | _ => .error .configError
  else .error .configError

/-- Categorisation core of `psi_calc`: the empty-sample short-circuit, the
dtype dispatch with the X2 assertion, binning of X1, re-use of its breaks on
X2, and the identity mapping in the categorical branch.  `.ok Option.none`
is the `(np.nan, empty frame)` short-circuit. -/
def psi_calc_core (X1 X2 : List Val) (m : Option String) (b : Bins)
    (fc : Bool) : Except PsiErr (Option (List Cat × List Cat)) :=
  if X1 = [] ∨ X2 = [] then .ok Option.none
  else if numericDtype X1 = true ∧ fc = false then
    if numericDtype X2 = false then .error .typeMismatch
    else
      match binX1 X1 m b with
      | .error e => .error e
      | .ok (c1, breaks) => .ok (some (c1, X2.map (cutCat breaks)))
  else .ok (some (X1.map Cat.val, X2.map Cat.val))

/-- value_counts(dropna=False) / len: relative frequency of a category. -/
def freq (cats : List Cat) (c : Cat) : ℚ :=
  (cats.count c : ℚ) / (cats.length : ℚ)

/-- Union of the categories observed in either sample (the outer-join
index). -/
def unionCats (c1 c2 : List Cat) : List Cat := (c1 ++ c2).dedup

/-- df0 = outer join of the two frequency series, NaN filled with 0.0. -/
def freqTable (c1 c2 : List Cat) : List (Cat × ℚ × ℚ) :=
  (unionCats c1 c2).map fun c => (c, freq c1 c, freq c2 c)

/-- Regularisation step, df0.replace of 0.0 by the regulariser: a cell
equal to exactly 0 becomes the regulariser, other cells are unchanged. -/
def reg (r q : ℚ) : ℚ := if q = 0 then r else q

/-- Per-category PSI contribution (x["expected"] - x["actual"]) *
np.log(x["expected"] / x["actual"]). -/
noncomputable def psiTerm (e a : ℝ) : ℝ := (e - a) * Real.log (e / a)

/-- sum of the per-row PSI contributions of the regularised table df1. -/
noncomputable def psiOfTable (r : ℚ) (t : List (Cat × ℚ × ℚ)) : ℝ :=
  (t.map fun row => psiTerm ((reg r row.2.1 : ℚ) : ℝ) ((reg r row.2.2 : ℚ) : ℝ)).sum

/-- Full `psi_calc`: the PSI value (`Option.none` = np.nan) and the
unregularised frequency table df0. -/
noncomputable def psi_calc (X1 X2 : List Val) (m : Option String) (b : Bins)
    (fc : Bool) (r : ℚ) : Except PsiErr (Option ℝ × List (Cat × ℚ × ℚ)) :=
  match psi_calc_core X1 X2 m b fc with
  | .error e => .error e
  | .ok Option.none => .ok (Option.none, [])
  | .ok (some (c1, c2)) =>
      .ok (some (psiOfTable r (freqTable c1 c2)), freqTable c1 c2)

/-- The `ConfigurationError` domain of `pd.cut` on X1's bins argument:
a bin count below 1, a bins argument that is neither an integer nor a list,
or an explicit break list that is empty or has an adjacent strictly
decreasing pair (the check is on the raw list, before duplicate
dropping). -/
def cutBad : Bins → Bool
  | .int n => decide (n < 1)
  | .list l => decide (l = []) || ! sortedLE l
  | _ => true

/-- The full `ConfigurationError` domain of the binning step, mirroring
`binX1`. -/
def configBad (m : Option String) (b : Bins) : Bool :=
  if m = some ("equidistant") ∨ m = Option.none then
    if m = Option.none ∧ b.isList = false then true else cutBad b
  else if m = some ("quantiles") then
    match b with
    | .int n => decide (n < 0)
    | _ => true
  else true

theorem binX1_ok_shape {X : List Val} {m : Option String} {b : Bins}
    {c : List Cat} {br : List ℚ} (h : binX1 X m b = .ok (c, br)) :
    c = X.map (cutCat br) := by
  unfold binX1 at h
  split at h
  · split at h
    · exact absurd h (by simp)
    · split at h
      · exact absurd h (by simp)
      · simp only [Except.ok.injEq, Prod.mk.injEq] at h
        obtain ⟨h1, h2⟩ := h
        subst h2; subst h1; rfl
  · split at h
    · split at h
      · split at h
        · exact absurd h (by simp)
        · simp only [Except.ok.injEq, Prod.mk.injEq] at h
          obtain ⟨h1, h2⟩ := h
          subst h2; subst h1; rfl
      · exact absurd h (by simp)
    · exact absurd h (by simp)

theorem core_shapes {X1 X2 : List Val} {m : Option String} {b : Bins} {fc : Bool}
    {c1 c2 : List Cat}
    (h : psi_calc_core X1 X2 m b fc = .ok (some (c1, c2))) :
    (∃ br, binX1 X1 m b = .ok (c1, br) ∧ c1 = X1.map (cutCat br) ∧
        c2 = X2.map (cutCat br)) ∨
    (c1 = X1.map Cat.val ∧ c2 = X2.map Cat.val) := by
  unfold psi_calc_core at h
  split at h
  · exact absurd h (by simp)
  · split at h
    · split at h
      · exact absurd h (by simp)
      · split at h
        · exact absurd h (by simp)
        · rename_i heq
          simp only [Except.ok.injEq, Option.some.injEq, Prod.mk.injEq] at h
          obtain ⟨h1, h2⟩ := h
          subst h1; subst h2
          exact Or.inl ⟨_, heq, binX1_ok_shape heq, rfl⟩
    · simp only [Except.ok.injEq, Option.some.injEq, Prod.mk.injEq] at h
      obtain ⟨h1, h2⟩ := h
      exact Or.inr ⟨h1.symm, h2.symm⟩

theorem psiTerm_self (x : ℝ) : psiTerm x x = 0 := by simp [psiTerm]

theorem psiTerm_nonneg {e a : ℝ} (he : 0 < e) (ha : 0 < a) : 0 ≤ psiTerm e a := by
  unfold psiTerm
  rcases le_total a e with h | h
  · exact mul_nonneg (by linarith) (Real.log_nonneg ((one_le_div ha).mpr h))
  · exact mul_nonneg_iff.mpr (Or.inr ⟨by linarith,
      Real.log_nonpos (by positivity) ((div_le_one ha).mpr h)⟩)

theorem psiTerm_eq_zero_iff {e a : ℝ} (he : 0 < e) (ha : 0 < a) :
    psiTerm e a = 0 ↔ e = a := by
  constructor
  · intro h
    rcases mul_eq_zero.mp h with h1 | h1
    · linarith [sub_eq_zero.mp h1]
    · rcases Real.log_eq_zero.mp h1 with h2 | h2 | h2
      · exact absurd h2 (div_ne_zero he.ne' ha.ne')
      · exact (div_eq_one_iff_eq ha.ne').mp h2
      · exfalso
        have hp : (0:ℝ) < e / a := div_pos he ha
        rw [h2] at hp
        linarith
  · rintro rfl
    exact psiTerm_self _

theorem reg_pos {r q : ℚ} (hr : 0 < r) (hq : 0 ≤ q) : 0 < reg r q := by
  unfold reg
  split
  · exact hr
  · rename_i h
    exact lt_of_le_of_ne hq (Ne.symm h)

theorem freq_nonneg (l : List Cat) (c : Cat) : 0 ≤ freq l c := by
  unfold freq
  positivity

theorem freq_of_not_mem {l : List Cat} {c : Cat} (h : c ∉ l) : freq l c = 0 := by
  unfold freq
  rw [List.count_eq_zero.mpr h]
  simp

theorem freq_sum_self {l : List Cat} (h : l ≠ []) :
    ∑ c ∈ l.toFinset, freq l c = 1 := by
  unfold freq
  rw [← Finset.sum_div, ← Nat.cast_sum, List.sum_toFinset_count_eq_length]
  exact div_self (Nat.cast_ne_zero.mpr fun hl => h (List.length_eq_zero.mp hl))

theorem toFinset_unionCats (c1 c2 : List Cat) :
    (unionCats c1 c2).toFinset = c1.toFinset ∪ c2.toFinset := by
  unfold unionCats
  ext c
  simp [List.mem_dedup]

theorem freq_sum_union_left {c1 : List Cat} (c2 : List Cat) (h : c1 ≠ []) :
    ∑ c ∈ (unionCats c1 c2).toFinset, freq c1 c = 1 := by
  rw [toFinset_unionCats,
    ← Finset.sum_subset Finset.subset_union_left
      (fun c _ hc => freq_of_not_mem fun hm => hc (List.mem_toFinset.mpr hm))]
  exact freq_sum_self h

theorem freq_sum_union_right (c1 : List Cat) {c2 : List Cat} (h : c2 ≠ []) :
    ∑ c ∈ (unionCats c1 c2).toFinset, freq c2 c = 1 := by
  rw [toFinset_unionCats,
    ← Finset.sum_subset Finset.subset_union_right
      (fun c _ hc => freq_of_not_mem fun hm => hc (List.mem_toFinset.mpr hm))]
  exact freq_sum_self h

theorem psiOfTable_freqTable (r : ℚ) (c1 c2 : List Cat) :
    psiOfTable r (freqTable c1 c2) =
      ∑ c ∈ (unionCats c1 c2).toFinset,
        psiTerm ((reg r (freq c1 c) : ℚ) : ℝ) ((reg r (freq c2 c) : ℚ) : ℝ) := by
  unfold psiOfTable freqTable unionCats
  rw [List.map_map]
  rw [show ((fun row : Cat × ℚ × ℚ =>
        psiTerm ((reg r row.2.1 : ℚ) : ℝ) ((reg r row.2.2 : ℚ) : ℝ)) ∘
        fun c => (c, freq c1 c, freq c2 c)) =
      fun c => psiTerm ((reg r (freq c1 c) : ℚ) : ℝ) ((reg r (freq c2 c) : ℚ) : ℝ)
    from rfl]
  rw [List.sum_toFinset _ (List.nodup_dedup (c1 ++ c2))]

theorem psiOfTable_self (r : ℚ) (c : List Cat) : psiOfTable r (freqTable c c) = 0 := by
  unfold psiOfTable
  apply List.sum_eq_zero
  intro x hx
  simp only [List.mem_map] at hx
  obtain ⟨row, hrow, rfl⟩ := hx
  unfold freqTable at hrow
  simp only [List.mem_map] at hrow
  obtain ⟨c', _, rfl⟩ := hrow
  exact psiTerm_self _

theorem cutCat_out_of_range {breaks : List ℚ} {x : ℚ}
    (h : (∀ e ∈ breaks, x < e) ∨ (∀ e ∈ breaks, e < x)) :
    cutCat breaks (.num x) = Cat.nanStr := by
  have hhead : breaks ≠ [] → ¬ x = breaks.headD 0 := by
    intro hne
    have hmem : breaks.headD 0 ∈ breaks := by
      cases breaks with
      | nil => exact absurd rfl hne
      | cons a t => exact List.mem_cons_self a t
    rcases h with h | h
    · exact (h _ hmem).ne
    · exact (h _ hmem).ne'
  have hcond : ¬ (breaks ≠ [] ∧ x = breaks.headD 0) := by
    rintro ⟨hne, hx⟩
    exact hhead hne hx
  rcases h with h | h
  · have hc : breaks.countP (fun e => decide (e < x)) = 0 :=
      List.countP_eq_zero.mpr fun e he => by
        simpa using not_lt.mpr (h e he).le
    simp only [cutCat]
    rw [if_neg hcond, hc]
    exact if_pos (Or.inl rfl)
  · have hc : breaks.countP (fun e => decide (e < x)) = breaks.length :=
      List.countP_eq_length.mpr fun e he => by simpa using h e he
    simp only [cutCat]
    rw [if_neg hcond, hc]
    exact if_pos (Or.inr rfl)

theorem cutBreaks_spec (X : List Val) (b : Bins) (hnn : X.filterMap toOptQ ≠ []) :
    (cutBad b = true ∧ cutBreaks X b = .error .configError) ∨
    (cutBad b = false ∧ ∃ br, cutBreaks X b = .ok br) := by
  cases b with
  | int n =>
    by_cases hn : n < 1
    · left
      exact ⟨by simp [cutBad, hn], by simp [cutBreaks, hn]⟩
    · right
      refine ⟨by simp [cutBad, hn],
        ⟨dropDup (equidistantBreaks (X.filterMap toOptQ) n.toNat), ?_⟩⟩
      simp only [cutBreaks]
      rw [if_neg hn, if_neg hnn]
  | float q => left; exact ⟨rfl, rfl⟩
  | none => left; exact ⟨rfl, rfl⟩
  | list l =>
    by_cases he : l = []
    · left
      refine ⟨by simp [cutBad, he], ?_⟩
      simp only [cutBreaks]
      rw [if_pos he]
    · by_cases hs : sortedLE l = true
      · right
        refine ⟨by simp [cutBad, he, hs], ⟨dropDup l, ?_⟩⟩
        simp only [cutBreaks]
        rw [if_neg he, if_pos hs]
      · left
        refine ⟨by simp [cutBad, he, Bool.not_eq_true] at hs ⊢; simp [hs], ?_⟩
        simp only [cutBreaks]
        rw [if_neg he, if_neg hs]

theorem binX1_spec (X : List Val) (m : Option String) (b : Bins)
    (hnn : X.filterMap toOptQ ≠ []) :
    (configBad m b = true ∧ binX1 X m b = .error .configError) ∨
    (configBad m b = false ∧ ∃ br, binX1 X m b = .ok (X.map (cutCat br), br)) := by
  by_cases hm1 : m = some ("equidistant") ∨ m = Option.none
  · by_cases hm2 : m = Option.none ∧ b.isList = false
    · left
      constructor
      · unfold configBad
        rw [if_pos hm1, if_pos hm2]
      · unfold binX1
        rw [if_pos hm1, if_pos hm2]
    · rcases cutBreaks_spec X b hnn with ⟨hbad, herr⟩ | ⟨hok, br, hbr⟩
      · left
        constructor
        · unfold configBad
          rw [if_pos hm1, if_neg hm2]
          exact hbad
        · unfold binX1
          rw [if_pos hm1, if_neg hm2, herr]
      · right
        constructor
        · unfold configBad
          rw [if_pos hm1, if_neg hm2]
          exact hok
        · refine ⟨br, ?_⟩
          unfold binX1
          rw [if_pos hm1, if_neg hm2, hbr]
  · by_cases hm3 : m = some ("quantiles")
    · cases b with
      | int n =>
        by_cases hn : n < 0
        · left
          constructor
          · unfold configBad
            rw [if_neg hm1, if_pos hm3]
            simp [hn]
          · unfold binX1
            rw [if_neg hm1, if_pos hm3]
            simp [hn]
        · right
          constructor
          · unfold configBad
            rw [if_neg hm1, if_pos hm3]
            simp [hn]
          · refine ⟨dropDup (quantileBreaks (X.filterMap toOptQ) n.toNat), ?_⟩
            unfold binX1
            rw [if_neg hm1, if_pos hm3]
            simp [hn]
      | float q =>
        left
        exact ⟨by unfold configBad; rw [if_neg hm1, if_pos hm3],
               by unfold binX1; rw [if_neg hm1, if_pos hm3]⟩
      | list l =>
        left
        exact ⟨by unfold configBad; rw [if_neg hm1, if_pos hm3],
               by unfold binX1; rw [if_neg hm1, if_pos hm3]⟩
      | none =>
        left
        exact ⟨by unfold configBad; rw [if_neg hm1, if_pos hm3],
               by unfold binX1; rw [if_neg hm1, if_pos hm3]⟩
    · left
      exact ⟨by unfold configBad; rw [if_neg hm1, if_neg hm3],
             by unfold binX1; rw [if_neg hm1, if_neg hm3]⟩

theorem psi_calc_ok {X1 X2 : List Val} {m : Option String} {b : Bins} {fc : Bool}
    {c1 c2 : List Cat} (r : ℚ)
    (h : psi_calc_core X1 X2 m b fc = .ok (some (c1, c2))) :
    psi_calc X1 X2 m b fc r =
      .ok (some (psiOfTable r (freqTable c1 c2)), freqTable c1 c2) := by
  unfold psi_calc
  rw [h]

theorem core_lengths {X1 X2 : List Val} {m : Option String} {b : Bins} {fc : Bool}
    {c1 c2 : List Cat}
    (h : psi_calc_core X1 X2 m b fc = .ok (some (c1, c2))) :
    c1.length = X1.length ∧ c2.length = X2.length := by
  rcases core_shapes h with ⟨br, _, h1, h2⟩ | ⟨h1, h2⟩ <;>
    exact ⟨by rw [h1, List.length_map], by rw [h2, List.length_map]⟩

theorem core_numeric {X1 X2 : List Val} {m : Option String} {b : Bins}
    {c1 c2 : List Cat} (hn1 : numericDtype X1 = true)
    (hcore : psi_calc_core X1 X2 m b false = .ok (some (c1, c2))) :
    ∃ breaks, binX1 X1 m b = .ok (c1, breaks) ∧
      c1 = X1.map (cutCat breaks) ∧ c2 = X2.map (cutCat breaks) := by
  unfold psi_calc_core at hcore
  by_cases hxe : X1 = [] ∨ X2 = []
  · rw [if_pos hxe] at hcore
    exact absurd hcore (by simp)
  · rw [if_neg hxe, if_pos ⟨hn1, rfl⟩] at hcore
    split at hcore
    · exact absurd hcore (by simp)
    · split at hcore
      · exact absurd hcore (by simp)
      · rename_i heq
        simp only [Except.ok.injEq, Option.some.injEq, Prod.mk.injEq] at hcore
        obtain ⟨hh1, hh2⟩ := hcore
        subst hh1
        subst hh2
        exact ⟨_, heq, binX1_ok_shape heq, rfl⟩

theorem freqTable_map_fst (c1 c2 : List Cat) :
    ((freqTable c1 c2).map fun row => row.2.1).sum =
      ∑ c ∈ (unionCats c1 c2).toFinset, freq c1 c := by
  unfold freqTable unionCats
  rw [List.map_map]
  rw [show ((fun row : Cat × ℚ × ℚ => row.2.1) ∘ fun c => (c, freq c1 c, freq c2 c)) =
      fun c => freq c1 c from rfl]
  rw [List.sum_toFinset _ (List.nodup_dedup (c1 ++ c2))]

theorem freqTable_map_snd (c1 c2 : List Cat) :
    ((freqTable c1 c2).map fun row => row.2.2).sum =
      ∑ c ∈ (unionCats c1 c2).toFinset, freq c2 c := by
  unfold freqTable unionCats
  rw [List.map_map]
  rw [show ((fun row : Cat × ℚ × ℚ => row.2.2) ∘ fun c => (c, freq c1 c, freq c2 c)) =
      fun c => freq c2 c from rfl]
  rw [List.sum_toFinset _ (List.nodup_dedup (c1 ++ c2))]

/-- C5: If either input sample, after normalisation to the internal sequence
form, is empty, `psi_calc` returns the pair (NaN, empty frequency table) —
modelled as `.ok (Option.none, [])` — without raising any error, regardless
of the binning mode, bins, or other parameters. -/
theorem psi_calc_empty (X1 X2 : List Val) (m : Option String) (b : Bins)
    (fc : Bool) (r : ℚ) (h : X1 = [] ∨ X2 = []) :
    psi_calc X1 X2 m b fc r = .ok (Option.none, []) := by
  unfold psi_calc psi_calc_core
  rw [if_pos h]

theorem psi_calc_empty_witness :
    psi_calc [] [Val.num 1, Val.num 2, Val.num 3] (some ("equidistant"))
      (Bins.int 10) false (1 / 10000) = .ok (Option.none, []) :=
  psi_calc_empty _ _ _ _ _ _ (Or.inl rfl)

/-- C7: If sample 1 has numeric dtype and force_categorical is false, but
sample 2 does not have numeric dtype, `psi_calc` fails with a TypeMismatch
error instead of returning a result. -/
theorem psi_calc_type_mismatch (X1 X2 : List Val) (m : Option String)
    (b : Bins) (r : ℚ) (h1 : X1 ≠ []) (h2 : X2 ≠ [])
    (hn1 : numericDtype X1 = true) (hn2 : numericDtype X2 = false) :
    psi_calc X1 X2 m b false r = .error .typeMismatch := by
  unfold psi_calc psi_calc_core
  rw [if_neg (by rintro (h | h); exacts [h1 h, h2 h]), if_pos ⟨hn1, rfl⟩,
    if_pos hn2]

theorem psi_calc_type_mismatch_witness :
    psi_calc [Val.num 1, Val.nan] [Val.str ("a")] (some ("equidistant"))
      (Bins.int 10) false (1 / 10000) = .error .typeMismatch :=
  psi_calc_type_mismatch _ _ _ _ _ (by decide) (by decide) (by decide) (by decide)

/-- C10: The numeric/categorical agreement check is one-directional: when
sample 1 does not have numeric dtype (or force_categorical is true),
`psi_calc` performs no type check on sample 2 — a categorical sample 1 paired
with a numeric sample 2 raises no error, both samples are treated as
categorical (identity categorisation `Cat.val`), and a PSI value is
returned. -/
theorem psi_calc_categorical_no_check (X1 X2 : List Val) (m : Option String)
    (b : Bins) (fc : Bool) (r : ℚ) (h1 : X1 ≠ []) (h2 : X2 ≠ [])
    (h : numericDtype X1 = false ∨ fc = true) :
    psi_calc X1 X2 m b fc r =
      .ok (some (psiOfTable r (freqTable (X1.map Cat.val) (X2.map Cat.val))),
           freqTable (X1.map Cat.val) (X2.map Cat.val)) := by
  have hcond : ¬ (numericDtype X1 = true ∧ fc = false) := by
    rintro ⟨ha, hb⟩
    rcases h with h | h
    · rw [h] at ha
      exact absurd ha (by simp)
    · rw [h] at hb
      exact absurd hb (by simp)
  have hcore : psi_calc_core X1 X2 m b fc =
      .ok (some (X1.map Cat.val, X2.map Cat.val)) := by
    unfold psi_calc_core
    rw [if_neg (by rintro (hh | hh); exacts [h1 hh, h2 hh]), if_neg hcond]
  exact psi_calc_ok r hcore

theorem psi_calc_categorical_no_check_witness :
    psi_calc [Val.str ("a")] [Val.num 1] (some ("equidistant")) (Bins.int 10)
      false (1 / 10000) =
      .ok (some (psiOfTable (1 / 10000)
              (freqTable ([Val.str ("a")].map Cat.val) ([Val.num 1].map Cat.val))),
           freqTable ([Val.str ("a")].map Cat.val) ([Val.num 1].map Cat.val)) :=
  psi_calc_categorical_no_check _ _ _ _ _ _ (by decide) (by decide)
    (Or.inl (by decide))

/-- C2: For every non-empty sample S for which the categorisation step
succeeds — categorical (force_categorical or non-numeric dtype) as well as
numeric equidistant or quantile binning, missing values included —
`psi_calc S S` returns the PSI value 0 exactly. -/
theorem psi_calc_identity (S : List Val) (m : Option String) (b : Bins)
    (fc : Bool) (r : ℚ) (c1 c2 : List Cat)
    (hcore : psi_calc_core S S m b fc = .ok (some (c1, c2))) :
    psi_calc S S m b fc r = .ok (some 0, freqTable c1 c1) := by
  have hcc : c1 = c2 := by
    rcases core_shapes hcore with ⟨br, _, hA, hB⟩ | ⟨hA, hB⟩ <;> rw [hA, hB]
  subst hcc
  rw [psi_calc_ok r hcore, psiOfTable_self r c1]

theorem psi_calc_identity_witness :
    psi_calc [Val.num 1, Val.nan, Val.num 2] [Val.num 1, Val.nan, Val.num 2]
      (some ("equidistant")) (Bins.int 2) false (1 / 10000) =
      .ok (some 0,
        freqTable
          [Cat.bin (999/1000) (3/2), Cat.nanStr, Cat.bin (3/2) 2]
          [Cat.bin (999/1000) (3/2), Cat.nanStr, Cat.bin (3/2) 2]) :=
  psi_calc_identity _ _ _ _ _ _
    [Cat.bin (999/1000) (3/2), Cat.nanStr, Cat.bin (3/2) 2]
    (by with_unfolding_all rfl)

/-- C1: For any two non-empty samples whose categorisation succeeds, the PSI
value returned by `psi_calc` equals the sum, over all categories in the
union of both samples' observed categories, of
(expected - actual) * ln(expected / actual) computed on the regularised
frequencies (cells equal to exactly 0 replaced by the regulariser, non-zero
cells unchanged), while the table returned to the caller is the
unregularised one, showing frequency 0 for categories absent from a
sample. -/
theorem psi_calc_regularized_sum (X1 X2 : List Val) (m : Option String)
    (b : Bins) (fc : Bool) (r : ℚ) (c1 c2 : List Cat)
    (hcore : psi_calc_core X1 X2 m b fc = .ok (some (c1, c2))) :
    psi_calc X1 X2 m b fc r =
      .ok (some (∑ c ∈ (unionCats c1 c2).toFinset,
              psiTerm ((reg r (freq c1 c) : ℚ) : ℝ) ((reg r (freq c2 c) : ℚ) : ℝ)),
           (unionCats c1 c2).map fun c => (c, freq c1 c, freq c2 c)) ∧
    (∀ c, c ∉ c1 → freq c1 c = 0) ∧ (∀ c, c ∉ c2 → freq c2 c = 0) := by
  refine ⟨?_, fun c h => freq_of_not_mem h, fun c h => freq_of_not_mem h⟩
  rw [psi_calc_ok r hcore, psiOfTable_freqTable]
  rfl

theorem psi_calc_regularized_sum_witness :
    psi_calc [Val.str ("a"), Val.str ("a"), Val.str ("b")] [Val.str ("a")]
      (some ("equidistant")) (Bins.int 10) false (1 / 10000) =
      .ok (some (∑ c ∈ (unionCats
              [Cat.val (Val.str ("a")), Cat.val (Val.str ("a")), Cat.val (Val.str ("b"))]
              [Cat.val (Val.str ("a"))]).toFinset,
            psiTerm
              ((reg (1 / 10000)
                (freq [Cat.val (Val.str ("a")), Cat.val (Val.str ("a")),
                  Cat.val (Val.str ("b"))] c) : ℚ) : ℝ)
              ((reg (1 / 10000) (freq [Cat.val (Val.str ("a"))] c) : ℚ) : ℝ)),
           (unionCats
              [Cat.val (Val.str ("a")), Cat.val (Val.str ("a")), Cat.val (Val.str ("b"))]
              [Cat.val (Val.str ("a"))]).map fun c =>
             (c, freq [Cat.val (Val.str ("a")), Cat.val (Val.str ("a")),
                   Cat.val (Val.str ("b"))] c,
              freq [Cat.val (Val.str ("a"))] c)) ∧
    (∀ c, c ∉ [Cat.val (Val.str ("a")), Cat.val (Val.str ("a")), Cat.val (Val.str ("b"))] →
      freq [Cat.val (Val.str ("a")), Cat.val (Val.str ("a")), Cat.val (Val.str ("b"))] c = 0) ∧
    (∀ c, c ∉ [Cat.val (Val.str ("a"))] → freq [Cat.val (Val.str ("a"))] c = 0) :=
  psi_calc_regularized_sum _ _ _ _ _ _ _ _ (by with_unfolding_all rfl)

/-- C4: For any two non-empty samples whose categorisation succeeds and any
positive regulariser, every per-category term
(expected - actual) * ln(expected / actual) computed on the regularised
frequencies is nonnegative, and is 0 exactly when the regularised expected
and actual frequencies are equal; consequently the PSI value (their sum) is
nonnegative. -/
theorem psi_calc_nonneg (X1 X2 : List Val) (m : Option String) (b : Bins)
    (fc : Bool) (r : ℚ) (c1 c2 : List Cat) (hr : 0 < r)
    (hcore : psi_calc_core X1 X2 m b fc = .ok (some (c1, c2))) :
    (∀ row ∈ freqTable c1 c2,
        0 ≤ psiTerm ((reg r row.2.1 : ℚ) : ℝ) ((reg r row.2.2 : ℚ) : ℝ) ∧
        (psiTerm ((reg r row.2.1 : ℚ) : ℝ) ((reg r row.2.2 : ℚ) : ℝ) = 0 ↔
          reg r row.2.1 = reg r row.2.2)) ∧
    psi_calc X1 X2 m b fc r =
      .ok (some (psiOfTable r (freqTable c1 c2)), freqTable c1 c2) ∧
    0 ≤ psiOfTable r (freqTable c1 c2) := by
  have hrow : ∀ row ∈ freqTable c1 c2, (0:ℚ) ≤ row.2.1 ∧ (0:ℚ) ≤ row.2.2 := by
    intro row hm
    unfold freqTable at hm
    simp only [List.mem_map] at hm
    obtain ⟨c, _, rfl⟩ := hm
    exact ⟨freq_nonneg c1 c, freq_nonneg c2 c⟩
  refine ⟨?_, psi_calc_ok r hcore, ?_⟩
  · intro row hm
    obtain ⟨hq1, hq2⟩ := hrow row hm
    have he : (0:ℝ) < ((reg r row.2.1 : ℚ) : ℝ) := by
      exact_mod_cast reg_pos hr hq1
    have ha : (0:ℝ) < ((reg r row.2.2 : ℚ) : ℝ) := by
      exact_mod_cast reg_pos hr hq2
    refine ⟨psiTerm_nonneg he ha, ?_⟩
    rw [psiTerm_eq_zero_iff he ha]
    exact ⟨fun h => by exact_mod_cast h, fun h => by exact_mod_cast h⟩
  · unfold psiOfTable
    apply List.sum_nonneg
    intro x hx
    simp only [List.mem_map] at hx
    obtain ⟨row, hm, rfl⟩ := hx
    obtain ⟨hq1, hq2⟩ := hrow row hm
    exact psiTerm_nonneg (by exact_mod_cast reg_pos hr hq1)
      (by exact_mod_cast reg_pos hr hq2)

theorem psi_calc_nonneg_witness :
    (∀ row ∈ freqTable [Cat.val (Val.str ("a"))] [Cat.val (Val.str ("b"))],
        0 ≤ psiTerm ((reg (1/10000) row.2.1 : ℚ) : ℝ) ((reg (1/10000) row.2.2 : ℚ) : ℝ) ∧
        (psiTerm ((reg (1/10000) row.2.1 : ℚ) : ℝ) ((reg (1/10000) row.2.2 : ℚ) : ℝ) = 0 ↔
          reg (1/10000) row.2.1 = reg (1/10000) row.2.2)) ∧
    psi_calc [Val.str ("a")] [Val.str ("b")] (some ("equidistant")) (Bins.int 10)
        false (1/10000) =
      .ok (some (psiOfTable (1/10000)
            (freqTable [Cat.val (Val.str ("a"))] [Cat.val (Val.str ("b"))])),
          freqTable [Cat.val (Val.str ("a"))] [Cat.val (Val.str ("b"))]) ∧
    0 ≤ psiOfTable (1/10000) (freqTable [Cat.val (Val.str ("a"))] [Cat.val (Val.str ("b"))]) :=
  psi_calc_nonneg _ _ _ _ _ _ _ _ (by norm_num) (by with_unfolding_all rfl)

/-- C6: In the unregularised frequency table returned by `psi_calc` for two
non-empty samples, each observed category's frequency for a sample equals
that category's count divided by the sample's length, every frequency is
nonnegative, each sample's frequencies sum to 1 over all observed
categories, and a category observed in only one sample has frequency
exactly 0 in the other sample's column. -/
theorem psi_calc_table_invariants (X1 X2 : List Val) (m : Option String)
    (b : Bins) (fc : Bool) (r : ℚ) (c1 c2 : List Cat)
    (h1 : X1 ≠ []) (h2 : X2 ≠ [])
    (hcore : psi_calc_core X1 X2 m b fc = .ok (some (c1, c2))) :
    psi_calc X1 X2 m b fc r =
      .ok (some (psiOfTable r (freqTable c1 c2)), freqTable c1 c2) ∧
    (∀ row ∈ freqTable c1 c2,
        row.2.1 = (c1.count row.1 : ℚ) / (X1.length : ℚ) ∧
        row.2.2 = (c2.count row.1 : ℚ) / (X2.length : ℚ) ∧
        0 ≤ row.2.1 ∧ 0 ≤ row.2.2) ∧
    ((freqTable c1 c2).map fun row => row.2.1).sum = 1 ∧
    ((freqTable c1 c2).map fun row => row.2.2).sum = 1 ∧
    (∀ c, c ∈ c2 → c ∉ c1 → (c, (0:ℚ), freq c2 c) ∈ freqTable c1 c2) ∧
    (∀ c, c ∈ c1 → c ∉ c2 → (c, freq c1 c, (0:ℚ)) ∈ freqTable c1 c2) := by
  obtain ⟨hl1, hl2⟩ := core_lengths hcore
  have hc1 : c1 ≠ [] := by
    intro hc
    apply h1
    rw [← List.length_eq_zero, ← hl1, hc]
    rfl
  have hc2 : c2 ≠ [] := by
    intro hc
    apply h2
    rw [← List.length_eq_zero, ← hl2, hc]
    rfl
  refine ⟨psi_calc_ok r hcore, ?_, ?_, ?_, ?_, ?_⟩
  · intro row hm
    unfold freqTable at hm
    simp only [List.mem_map] at hm
    obtain ⟨c, _, rfl⟩ := hm
    exact ⟨by unfold freq; rw [hl1], by unfold freq; rw [hl2],
      freq_nonneg c1 c, freq_nonneg c2 c⟩
  · rw [freqTable_map_fst]
    exact freq_sum_union_left c2 hc1
  · rw [freqTable_map_snd]
    exact freq_sum_union_right c1 hc2
  · intro c hmem hnot
    unfold freqTable
    refine List.mem_map.mpr ⟨c, ?_, by rw [freq_of_not_mem hnot]⟩
    unfold unionCats
    rw [List.mem_dedup]
    exact List.mem_append_right _ hmem
  · intro c hmem hnot
    unfold freqTable
    refine List.mem_map.mpr ⟨c, ?_, by rw [freq_of_not_mem hnot]⟩
    unfold unionCats
    rw [List.mem_dedup]
    exact List.mem_append_left _ hmem

theorem psi_calc_table_invariants_witness :
    psi_calc [Val.str ("a"), Val.str ("b")] [Val.str ("a")] (some ("equidistant"))
        (Bins.int 10) false (1/10000) =
      .ok (some (psiOfTable (1/10000)
            (freqTable [Cat.val (Val.str ("a")), Cat.val (Val.str ("b"))]
              [Cat.val (Val.str ("a"))])),
          freqTable [Cat.val (Val.str ("a")), Cat.val (Val.str ("b"))]
            [Cat.val (Val.str ("a"))]) ∧
    (∀ row ∈ freqTable [Cat.val (Val.str ("a")), Cat.val (Val.str ("b"))]
        [Cat.val (Val.str ("a"))],
        row.2.1 = (([Cat.val (Val.str ("a")), Cat.val (Val.str ("b"))].count row.1 : ℚ)) /
          (([Val.str ("a"), Val.str ("b")].length : ℚ)) ∧
        row.2.2 = (([Cat.val (Val.str ("a"))].count row.1 : ℚ)) /
          (([Val.str ("a")].length : ℚ)) ∧
        0 ≤ row.2.1 ∧ 0 ≤ row.2.2) ∧
    ((freqTable [Cat.val (Val.str ("a")), Cat.val (Val.str ("b"))]
        [Cat.val (Val.str ("a"))]).map fun row => row.2.1).sum = 1 ∧
    ((freqTable [Cat.val (Val.str ("a")), Cat.val (Val.str ("b"))]
        [Cat.val (Val.str ("a"))]).map fun row => row.2.2).sum = 1 ∧
    (∀ c, c ∈ [Cat.val (Val.str ("a"))] →
      c ∉ [Cat.val (Val.str ("a")), Cat.val (Val.str ("b"))] →
      (c, (0:ℚ), freq [Cat.val (Val.str ("a"))] c) ∈
        freqTable [Cat.val (Val.str ("a")), Cat.val (Val.str ("b"))]
          [Cat.val (Val.str ("a"))]) ∧
    (∀ c, c ∈ [Cat.val (Val.str ("a")), Cat.val (Val.str ("b"))] →
      c ∉ [Cat.val (Val.str ("a"))] →
      (c, freq [Cat.val (Val.str ("a")), Cat.val (Val.str ("b"))] c, (0:ℚ)) ∈
        freqTable [Cat.val (Val.str ("a")), Cat.val (Val.str ("b"))]
          [Cat.val (Val.str ("a"))]) :=
  psi_calc_table_invariants _ _ _ _ _ _ _ _ (by decide) (by decide)
    (by with_unfolding_all rfl)

/-- C3: In numeric mode, the bin edges used to categorise sample 2 are
exactly the edges computed from sample 1 (`binX1` returns the breaks and
sample 2 is mapped through `cutCat` with those very breaks — sample 2 never
redefines its own bins), and any sample-2 value strictly outside
[min_edge, max_edge] of sample 1's edges is assigned the distinct unmatched
category `Cat.nanStr`, never a bin interval. -/
theorem psi_calc_bin_edge_reuse (X1 X2 : List Val) (m : Option String)
    (b : Bins) (c1 c2 : List Cat) (hn1 : numericDtype X1 = true)
    (hcore : psi_calc_core X1 X2 m b false = .ok (some (c1, c2))) :
    ∃ breaks, binX1 X1 m b = .ok (c1, breaks) ∧
      c1 = X1.map (cutCat breaks) ∧ c2 = X2.map (cutCat breaks) ∧
      ∀ x : ℚ, ((∀ e ∈ breaks, x < e) ∨ (∀ e ∈ breaks, e < x)) →
        cutCat breaks (.num x) = Cat.nanStr ∧
        ∀ lo hi, cutCat breaks (.num x) ≠ Cat.bin lo hi := by
  obtain ⟨breaks, hbin, hA, hB⟩ := core_numeric hn1 hcore
  refine ⟨breaks, hbin, hA, hB, fun x hx => ⟨cutCat_out_of_range hx, ?_⟩⟩
  intro lo hi
  rw [cutCat_out_of_range hx]
  exact fun hcontra => Cat.noConfusion hcontra

theorem psi_calc_bin_edge_reuse_witness :
    ∃ breaks,
      binX1 [Val.num 1, Val.num 2, Val.num 3] (some ("equidistant")) (Bins.int 2) =
        .ok ([Cat.bin (998/1000) 2, Cat.bin (998/1000) 2, Cat.bin 2 3], breaks) ∧
      [Cat.bin (998/1000) 2, Cat.bin (998/1000) 2, Cat.bin 2 3] =
        [Val.num 1, Val.num 2, Val.num 3].map (cutCat breaks) ∧
      [Cat.bin 2 3, Cat.nanStr] = [Val.num 3, Val.num 10].map (cutCat breaks) ∧
      ∀ x : ℚ, ((∀ e ∈ breaks, x < e) ∨ (∀ e ∈ breaks, e < x)) →
        cutCat breaks (.num x) = Cat.nanStr ∧
        ∀ lo hi, cutCat breaks (.num x) ≠ Cat.bin lo hi :=
  psi_calc_bin_edge_reuse [Val.num 1, Val.num 2, Val.num 3] [Val.num 3, Val.num 10]
    (some ("equidistant")) (Bins.int 2) _ _ (by decide) (by with_unfolding_all rfl)

/-- C9: In numeric mode, every sample-2 value falling outside sample 1's bin
range and every missing value (in either sample) is rendered as the same
category "nan" (`Cat.nanStr`) before counting, so out-of-range actual
values and missing values are merged into one shared category in the
frequency table and in the PSI sum rather than forming two separate
categories. -/
theorem psi_calc_nan_merged (X1 X2 : List Val) (m : Option String) (b : Bins)
    (c1 c2 : List Cat) (hn1 : numericDtype X1 = true)
    (hcore : psi_calc_core X1 X2 m b false = .ok (some (c1, c2))) :
    ∃ breaks, c1 = X1.map (cutCat breaks) ∧ c2 = X2.map (cutCat breaks) ∧
      cutCat breaks Val.nan = Cat.nanStr ∧
      ∀ x : ℚ, ((∀ e ∈ breaks, x < e) ∨ (∀ e ∈ breaks, e < x)) →
        cutCat breaks (.num x) = cutCat breaks Val.nan := by
  obtain ⟨breaks, _, hA, hB⟩ := core_numeric hn1 hcore
  exact ⟨breaks, hA, hB, rfl, fun x hx => cutCat_out_of_range hx⟩

theorem psi_calc_nan_merged_witness :
    ∃ breaks,
      [Cat.bin (998/1000) 2, Cat.nanStr, Cat.bin 2 3] =
        [Val.num 1, Val.nan, Val.num 3].map (cutCat breaks) ∧
      [Cat.nanStr, Cat.bin 2 3] = [Val.num 10, Val.num 3].map (cutCat breaks) ∧
      cutCat breaks Val.nan = Cat.nanStr ∧
      ∀ x : ℚ, ((∀ e ∈ breaks, x < e) ∨ (∀ e ∈ breaks, e < x)) →
        cutCat breaks (.num x) = cutCat breaks Val.nan :=
  psi_calc_nan_merged [Val.num 1, Val.nan, Val.num 3] [Val.num 10, Val.num 3]
    (some ("equidistant")) (Bins.int 2) _ _ (by decide) (by with_unfolding_all rfl)

/-- C8 counterexample: for the numeric non-empty samples [1,2] and [1],
equidistant mode with the integer bin count 0 — a parameter combination
matching none of the claim's three enumerated conditions (the mode is not
None, not quantiles, and is a recognised string) — `psi_calc` nevertheless
fails with a ConfigurationError (pandas rejects a bin count below 1), so
the claimed "exactly when" enumeration is incomplete. -/
theorem psi_calc_config_extra_error :
    psi_calc [Val.num 1, Val.num 2] [Val.num 1] (some ("equidistant"))
      (Bins.int 0) false (1/10000) = .error .configError ∧
    some ("equidistant") ≠ (Option.none : Option String) ∧
    some ("equidistant") ≠ some ("quantiles") := by
  refine ⟨?_, by decide, by decide⟩
  with_unfolding_all rfl

/-- C8 (amended): for numeric non-empty samples with at least one
non-missing value in sample 1, `psi_calc` fails with a ConfigurationError
exactly when the binning parameters are invalid in the sense of `configBad`:
binning mode None with no explicit break-point list; quantile mode with a
non-integer or negative bin count; a binning mode string other than the
recognised ones; or, in the equidistant/None cut path, an integer bin count
below 1, a bins argument that is neither an integer nor a list, or an
explicit break list that is empty or has an adjacent strictly decreasing
pair (pandas validates the raw list before dropping duplicates).
With valid parameters no such error is raised. -/
theorem psi_calc_config_error_iff (X1 X2 : List Val) (m : Option String)
    (b : Bins) (r : ℚ) (h1 : X1 ≠ []) (h2 : X2 ≠ [])
    (hn1 : numericDtype X1 = true) (hn2 : numericDtype X2 = true)
    (hnn : X1.filterMap toOptQ ≠ []) :
    psi_calc X1 X2 m b false r = .error .configError ↔ configBad m b = true := by
  have hcond1 : ¬ (X1 = [] ∨ X2 = []) := by
    rintro (h | h)
    exacts [h1 h, h2 h]
  have hcond3 : ¬ (numericDtype X2 = false) := by
    rw [hn2]
    simp
  rcases binX1_spec X1 m b hnn with ⟨hbad, herr⟩ | ⟨hok, br, hbr⟩
  · constructor
    · intro _
      exact hbad
    · intro _
      unfold psi_calc psi_calc_core
      rw [if_neg hcond1, if_pos ⟨hn1, rfl⟩, if_neg hcond3, herr]
  · constructor
    · intro hcontra
      unfold psi_calc psi_calc_core at hcontra
      rw [if_neg hcond1, if_pos ⟨hn1, rfl⟩, if_neg hcond3, hbr] at hcontra
      exact absurd hcontra (by simp)
    · intro hc
      rw [hok] at hc
      exact absurd hc (by simp)

theorem psi_calc_config_error_iff_witness :
    (psi_calc [Val.num 1, Val.num 2] [Val.num 1] (some ("quantiles"))
        (Bins.float (5/2)) false (1/10000) = .error .configError ↔
      configBad (some ("quantiles")) (Bins.float (5/2)) = true) :=
  psi_calc_config_error_iff _ _ _ _ _ (by decide) (by decide) (by decide)
    (by decide) (by with_unfolding_all exact fun h => List.noConfusion h)
